import Mathlib

/-!
Verification of the mastering signal chain of `ultradaw`
(`src/ai_modules/mastering_engine.py`), shallowly embedded over `ℝ`.
Buffers are lists of real samples; the SciPy routines the engine calls
(`signal.filtfilt`, `signal.lfilter` with `lfilter_zi` initial conditions)
are embedded following their documented reference semantics
(odd extension of length `3 * max(len(a), len(b)) = 9`, forward and
time-reversed passes of a direct-form-II-transposed biquad, steady-state
initial conditions, and the length check that rejects inputs not longer
than the pad length).
-/

noncomputable section

namespace UltraDaw

/-- A normalized second-order filter section `(b0, b1, b2, a1, a2)` with
implicit `a0 = 1`, as passed by the engine to `scipy.signal.filtfilt`. -/
structure Biquad where
  b0 : ℝ
  b1 : ℝ
  b2 : ℝ
  a1 : ℝ
  a2 : ℝ

/-- Direct-form-II-transposed second-order recurrence of `scipy.signal.lfilter`
(with `a0 = 1`), threading the two-component state. -/
def lfilterAux (c : Biquad) : ℝ × ℝ → List ℝ → List ℝ
  | _, [] => []
  | (z0, z1), x :: xs =>
    let y := c.b0 * x + z0
    y :: lfilterAux c (c.b1 * x - c.a1 * y + z1, c.b2 * x - c.a2 * y) xs

/-- Steady-state initial conditions of `scipy.signal.lfilter_zi` for a
normalized second-order section: the solution of the 2x2 linear system
`(I - A^T) zi = B` with `B = b[1:] - a[1:]*b0`, written in closed form. -/
def lfilterZi (c : Biquad) : ℝ × ℝ :=
  let B0 := c.b1 - c.a1 * c.b0
  let B1 := c.b2 - c.a2 * c.b0
  let z0 := (B0 + B1) / (1 + c.a1 + c.a2)
  (z0, B1 - c.a2 * z0)

/-- Odd extension by 9 samples on each side, as `scipy.signal._arraytools.odd_ext`
does for `filtfilt`'s default `padlen = 3 * max(len(a), len(b)) = 9`:
prepend `2*x[0] - x[9-j]` and append `2*x[last] - x[n-2-j]`. -/
def oddExt (x : List ℝ) : List ℝ :=
  ((List.range 9).map fun j => 2 * x.headD 0 - x.getD (9 - j) 0)
    ++ x ++
  ((List.range 9).map fun j => 2 * x.getLastD 0 - x.getD (x.length - 2 - j) 0)

/-- The arithmetic core of `scipy.signal.filtfilt` (default `method='pad'`,
`padtype='odd'`, `padlen=9`): odd-extend, forward pass with initial state
`zi * ext[0]`, reversed pass with initial state `zi * y[-1]`, reverse back
and strip the 9 padding samples from each end. -/
def filtfiltCore (c : Biquad) (x : List ℝ) : List ℝ :=
  let ext := oddExt x
  let zi := lfilterZi c
  let x0 := ext.headD 0
  let y1 := lfilterAux c (zi.1 * x0, zi.2 * x0) ext
  let y0 := y1.getLastD 0
  let y2 := (lfilterAux c (zi.1 * y0, zi.2 * y0) y1.reverse).reverse
  (y2.drop 9).take x.length

/-- `scipy.signal.filtfilt`, including the `ValueError` it raises when the
input is not longer than `padlen = 9`. -/
def filtfilt (c : Biquad) (x : List ℝ) : Except String (List ℝ) :=
  if 9 < x.length then .ok (filtfiltCore c x)
  else .error "The length of the input vector x must be greater than padlen, which is 9."

/-- One EQ band's parameters, an entry of `_init_eq_params`. -/
structure BandParams where
  freq : ℝ
  gain : ℝ
  q : ℝ

/-- The five fixed EQ bands held in `self.eq_params`. -/
structure EqParams where
  low_shelf : BandParams
  low_mid : BandParams
  mid : BandParams
  high_mid : BandParams
  high_shelf : BandParams

/-- `_init_eq_params`: the initial band table. -/
def initEqParams : EqParams :=
  ⟨⟨100, 0.0, 0.7⟩, ⟨250, 0.0, 0.8⟩, ⟨1000, 0.0, 1.0⟩, ⟨4000, 0.0, 0.8⟩, ⟨8000, 0.0, 0.7⟩⟩

/-- The engine object: `__init__` stores the targets and the fixed internal
sample rate `self.sample_rate = 22050`. -/
structure Engine where
  target_lufs : ℝ
  target_peak : ℝ
  sample_rate : ℝ

/-- `MasteringEngine.__init__`: whatever targets the caller passes, the
internal sample rate is the constant 22050. -/
def initEngine (tl tp : ℝ) : Engine := ⟨tl, tp, 22050⟩

/-- A sample of the caller's buffer before sanitization: either a finite
real value or one of the non-finite IEEE values `nan`, `+inf`, `-inf`. -/
inductive FSample where
  | fin (v : ℝ)
  | nan
  | pinf
  | ninf

/-- `np.nan_to_num(audio, nan=0.0, posinf=0.0, neginf=0.0)` on one sample. -/
def nanToNum : FSample → ℝ
  | .fin v => v
  | .nan => 0
  | .pinf => 0
  | .ninf => 0

/-- `np.max(np.abs(audio))`, totalized to 0 on the empty buffer. -/
def maxAbs (x : List ℝ) : ℝ := (x.map fun v => |v|).foldr max 0

/-- `_validate_input`: replace non-finite samples by zero, reject buffers
whose peak is below `1e-10` as silent, and rescale peaks above 1.0 to 0.95. -/
def validateInput (x : List FSample) : Except String (List ℝ) :=
  let a := x.map nanToNum
  if maxAbs a < 1e-10 then .error "Input audio is silent"
  else if 1 < maxAbs a then .ok (a.map fun v => v / maxAbs a * 0.95)
  else .ok a

/-- The adaptive retune step at the top of `_apply_multiband_eq`: given the
mean spectral centroid, assign fixed gains to the affected bands. -/
def retuneEq (centroid : ℝ) (p : EqParams) : EqParams :=
  if centroid < 1000 then
    { p with high_mid := { p.high_mid with gain := 1.5 },
             high_shelf := { p.high_shelf with gain := 2.0 } }
  else if 4000 < centroid then
    { p with low_mid := { p.low_mid with gain := 1.0 } }
  else p

/-- The low-shelf biquad designed in `_apply_low_shelf` (audio-EQ-cookbook
low shelf with fixed slope 0.7), normalized by `a0`. -/
def lowShelfCoeffs (freq gain sr : ℝ) : Biquad :=
  let w0 := 2 * Real.pi * freq / sr
  let A := (10:ℝ) ^ (gain / 40)
  let alpha := Real.sin w0 / 2 * Real.sqrt ((A + 1/A) * (1/0.7 - 1) + 2)
  let b0 := A * ((A + 1) - (A - 1) * Real.cos w0 + 2 * Real.sqrt A * alpha)
  let b1 := 2 * A * ((A - 1) - (A + 1) * Real.cos w0)
  let b2 := A * ((A + 1) - (A - 1) * Real.cos w0 - 2 * Real.sqrt A * alpha)
  let a0 := (A + 1) + (A - 1) * Real.cos w0 + 2 * Real.sqrt A * alpha
  let a1 := -2 * ((A - 1) + (A + 1) * Real.cos w0)
  let a2 := (A + 1) + (A - 1) * Real.cos w0 - 2 * Real.sqrt A * alpha
  ⟨b0/a0, b1/a0, b2/a0, a1/a0, a2/a0⟩

/-- The peaking biquad designed in `_peaking_filter`, normalized by `a0`. -/
def peakingCoeffs (freq gain q sr : ℝ) : Biquad :=
  let w0 := 2 * Real.pi * freq / sr
  let A := (10:ℝ) ^ (gain / 40)
  let alpha := Real.sin w0 / (2 * q)
  let b0 := 1 + alpha * A
  let b1 := -2 * Real.cos w0
  let b2 := 1 - alpha * A
  let a0 := 1 + alpha / A
  let a1 := -2 * Real.cos w0
  let a2 := 1 - alpha / A
  ⟨b0/a0, b1/a0, b2/a0, a1/a0, a2/a0⟩

/-- The high-shelf biquad designed in `_apply_high_shelf`, normalized by `a0`. -/
def highShelfCoeffs (freq gain sr : ℝ) : Biquad :=
  let w0 := 2 * Real.pi * freq / sr
  let A := (10:ℝ) ^ (gain / 40)
  let alpha := Real.sin w0 / 2 * Real.sqrt ((A + 1/A) * (1/0.7 - 1) + 2)
  let b0 := A * ((A + 1) + (A - 1) * Real.cos w0 + 2 * Real.sqrt A * alpha)
  let b1 := -2 * A * ((A - 1) + (A + 1) * Real.cos w0)
  let b2 := A * ((A + 1) + (A - 1) * Real.cos w0 - 2 * Real.sqrt A * alpha)
  let a0 := (A + 1) - (A - 1) * Real.cos w0 + 2 * Real.sqrt A * alpha
  let a1 := 2 * ((A - 1) - (A + 1) * Real.cos w0)
  let a2 := (A + 1) - (A - 1) * Real.cos w0 - 2 * Real.sqrt A * alpha
  ⟨b0/a0, b1/a0, b2/a0, a1/a0, a2/a0⟩

/-- `_apply_low_shelf`: filter only when `abs(gain) > 0.1`. -/
def applyLowShelf (band : BandParams) (sr : ℝ) (x : List ℝ) : Except String (List ℝ) :=
  if 0.1 < |band.gain| then filtfilt (lowShelfCoeffs band.freq band.gain sr) x else .ok x

/-- One band of `_apply_peaking_filters`: filter only when `abs(gain) > 0.1`. -/
def applyPeaking (band : BandParams) (sr : ℝ) (x : List ℝ) : Except String (List ℝ) :=
  if 0.1 < |band.gain| then filtfilt (peakingCoeffs band.freq band.gain band.q sr) x else .ok x

/-- `_apply_high_shelf`: filter only when `abs(gain) > 0.1`. -/
def applyHighShelf (band : BandParams) (sr : ℝ) (x : List ℝ) : Except String (List ℝ) :=
  if 0.1 < |band.gain| then filtfilt (highShelfCoeffs band.freq band.gain sr) x else .ok x

/-- The filtering tail of `_apply_multiband_eq`: low shelf, then the three
peaking bands `low_mid`, `mid`, `high_mid`, then the high shelf. -/
def applyEqFilters (p : EqParams) (sr : ℝ) (x : List ℝ) : Except String (List ℝ) := do
  let a1 ← applyLowShelf p.low_shelf sr x
  let a2 ← applyPeaking p.low_mid sr a1
  let a3 ← applyPeaking p.mid sr a2
  let a4 ← applyPeaking p.high_mid sr a3
  applyHighShelf p.high_shelf sr a4

/-- Compressor threshold `10**(-18/20)` in linear amplitude. -/
def compThreshold : ℝ := (10:ℝ) ^ ((-18:ℝ) / 20)

/-- Compressor knee `10**(3/20)` in linear amplitude. -/
def compKnee : ℝ := (10:ℝ) ^ ((3:ℝ) / 20)

/-- Compressor ratio. -/
def compRatio : ℝ := 2.5

/-- Compressor makeup gain `10**(2/20)` in linear amplitude. -/
def compMakeup : ℝ := (10:ℝ) ^ ((2:ℝ) / 20)

/-- `int(attack * self.sample_rate)` of `_apply_compression`. -/
def attackSamples (sr : ℝ) : ℤ := ⌊(0.01:ℝ) * sr⌋

/-- `int(release * self.sample_rate)` of `_apply_compression`. -/
def compReleaseSamples (sr : ℝ) : ℤ := ⌊(0.1:ℝ) * sr⌋

/-- `alpha_attack = exp(-1/attack_samples)`. -/
def alphaAttack (sr : ℝ) : ℝ := Real.exp (-1 / (attackSamples sr : ℝ))

/-- `alpha_release = exp(-1/release_samples)`. -/
def alphaRelease (sr : ℝ) : ℝ := Real.exp (-1 / (compReleaseSamples sr : ℝ))

/-- The envelope-smoothing loop of `_apply_compression`: one-pole smoothing
with the attack coefficient when the instantaneous envelope rises above the
previous smoothed value and the release coefficient otherwise. -/
def smoothAux (aa ar : ℝ) : ℝ → List ℝ → List ℝ
  | _, [] => []
  | prev, e :: es =>
    let s := if prev < e then aa * prev + (1 - aa) * e else ar * prev + (1 - ar) * e
    s :: smoothAux aa ar s es

/-- `smoothed_envelope` of `_apply_compression`: absolute values, seeded
with the first envelope sample. -/
def smoothedEnvelope (sr : ℝ) (x : List ℝ) : List ℝ :=
  match x.map (fun v => |v|) with
  | [] => []
  | e :: es => e :: smoothAux (alphaAttack sr) (alphaRelease sr) e es

/-- `hard_compressed / smoothed_envelope` numerator: `(env - T)/ratio + T`. -/
def hardCompressed (env : ℝ) : ℝ := (env - compThreshold) / compRatio + compThreshold

/-- `soft_compressed` numerator of the knee region. -/
def softCompressed (env : ℝ) : ℝ :=
  env + (1 / compRatio - 1) * (env - compThreshold) ^ 2 /
    (2 * compThreshold * (compKnee - 1))

/-- The per-sample gain of `_apply_compression` as selected by the two
`np.where` calls: knee region takes `soft/env`, the above-threshold region
takes `hard/env`, and everything else keeps the initial gain 1. -/
def gainReduction (env : ℝ) : ℝ :=
  if ¬ env < compThreshold / compKnee ∧ ¬ compThreshold < env then softCompressed env / env
  else if compThreshold < env then hardCompressed env / env
  else 1

/-- `_apply_compression`: gain applied to the original samples, then makeup. -/
def applyCompression (sr : ℝ) (x : List ℝ) : List ℝ :=
  List.zipWith (fun xi si => xi * gainReduction si * compMakeup) x (smoothedEnvelope sr x)

/-- `int(0.001 * self.sample_rate)`: the 1 ms pseudo-stereo delay. -/
def delaySamples (sr : ℝ) : ℕ := (⌊(0.001:ℝ) * sr⌋).toNat

/-- The fixed left-channel coloration filter of `_enhance_stereo`. -/
def lowColor : Biquad := ⟨1.0, 0, 0, -0.5, 0.1⟩

/-- The fixed right-channel coloration filter of `_enhance_stereo`. -/
def highColor : Biquad := ⟨0.8, -0.8, 0, -0.7, 0.2⟩

/-- `_enhance_stereo`: build the delayed left channel
(`stereo[0, d:] = audio[:-d]`, `stereo[0, :d] = audio[:d]`), filter both
channels, and average back to mono. -/
def enhanceStereo (sr : ℝ) (x : List ℝ) : Except String (List ℝ) := do
  let d := delaySamples sr
  let leftIn := x.take d ++ x.take (x.length - d)
  let l ← filtfilt lowColor leftIn
  let r ← filtfilt highColor x
  pure (List.zipWith (fun a b => (a + b) / 2) l r)

/-- `_apply_harmonic_excitation`: stateless sample-wise saturation blend. -/
def applyHarmonicExcitation (x : List ℝ) : List ℝ :=
  x.map fun v =>
    let harmonic := v * (1 + 0.1 * Real.tanh (v * 3))
    v + 0.3 * (harmonic - v)

/-- Limiter threshold `10**(-0.5/20)` in linear amplitude. -/
def limThreshold : ℝ := (10:ℝ) ^ ((-0.5:ℝ) / 20)

/-- `int(release * self.sample_rate)` of `_apply_limiting`. -/
def limReleaseSamples (sr : ℝ) : ℤ := ⌊(0.005:ℝ) * sr⌋

/-- `int(lookahead * self.sample_rate)` of `_apply_limiting`. -/
def lookaheadSamples (sr : ℝ) : ℕ := (⌊(0.002:ℝ) * sr⌋).toNat

/-- `alpha = exp(-1/release_samples)` of `_apply_limiting`. -/
def limAlpha (sr : ℝ) : ℝ := Real.exp (-1 / (limReleaseSamples sr : ℝ))

/-- `np.max(np.abs(audio[i:look_ahead_end]))`: the forward lookahead peak. -/
def windowPeak (x : List ℝ) (i look : ℕ) : ℝ :=
  (((x.drop i).take look).map fun v => |v|).foldr max 0

/-- One iteration of the `_apply_limiting` loop: when the lookahead peak is
above threshold, the gain `threshold/peak` is blended toward unity by the
release coefficient for every `i > 0`. -/
def limitSample (sr : ℝ) (x : List ℝ) (i : ℕ) : ℝ :=
  if limThreshold < windowPeak x i (lookaheadSamples sr) then
    x.getD i 0 *
      (if 0 < i then
        limAlpha sr * (limThreshold / windowPeak x i (lookaheadSamples sr)) +
          (1 - limAlpha sr) * 1.0
      else limThreshold / windowPeak x i (lookaheadSamples sr))
  else x.getD i 0

/-- `_apply_limiting`: the per-index limiting loop over a copy of the input. -/
def applyLimiting (sr : ℝ) (x : List ℝ) : List ℝ :=
  (List.range x.length).map (limitSample sr x)

/-- The fixed K-weighting pre-emphasis filter of `_k_weighting`. -/
def preCoeffs : Biquad :=
  ⟨1.53512485958697, -2.69169618940638, 1.19839281085285,
   -1.69065929318241, 0.73248077421585⟩

/-- The fixed K-weighting high-pass filter of `_k_weighting`. -/
def hpCoeffs : Biquad := ⟨1.0, -2.0, 1.0, -1.99004745483398, 0.99007225036621⟩

/-- `_k_weighting`: the two fixed filters in series (the function receives a
`sample_rate` argument in the source but never reads it). -/
def kWeighting (x : List ℝ) : Except String (List ℝ) := do
  let p ← filtfilt preCoeffs x
  filtfilt hpCoeffs p

/-- `np.mean(k_weighted**2)`, totalized to 0 on the empty buffer. -/
def meanSquare (x : List ℝ) : ℝ := (x.map fun v => v ^ 2).sum / x.length

/-- `_calculate_lufs`: `-0.691 + 10*log10(mean_square + 1e-12)` (its
`sample_rate` argument is unused by `_k_weighting`). -/
def calculateLufs (x : List ℝ) : Except String ℝ := do
  let k ← kWeighting x
  pure (-0.691 + 10 * Real.logb 10 (meanSquare k + 1e-12))

/-- `_normalize_loudness`: measure, convert the dB correction to a linear
gain, and scale the buffer. -/
def normalizeLoudness (target : ℝ) (x : List ℝ) : Except String (List ℝ) := do
  let cur ← calculateLufs x
  let linearGain := (10:ℝ) ^ ((target - cur) / 20)
  pure (x.map fun v => linearGain * v)

/-- The compression / stereo-enhancement / excitation / limiting midsection
of `master_track`, which reads only the engine's internal sample rate. -/
def midStages (e : Engine) (a : List ℝ) : Except String (List ℝ) := do
  let a2 := applyCompression e.sample_rate a
  let a3 ← enhanceStereo e.sample_rate a2
  let a4 := applyHarmonicExcitation a3
  pure (applyLimiting e.sample_rate a4)

/-- `master_track`: validation, adaptive EQ (the spectral-centroid analysis
by `librosa.feature.spectral_centroid` is an external library call, passed
here as the oracle `centroid` taking the caller's sample rate and the
sanitized buffer), then the fixed chain.  The returned `EqParams` component
is the engine's mutable band state after the call: unchanged when validation
fails, and retuned as soon as the EQ analysis has run, even if a later stage
fails. -/
def masterTrack (centroid : ℝ → List ℝ → ℝ) (e : Engine) (p : EqParams)
    (sr : ℝ) (x : List FSample) : EqParams × Except String (List ℝ) :=
  match validateInput x with
  | .error msg => (p, .error msg)
  | .ok a =>
    let p1 := retuneEq (centroid sr a) p
    (p1, do
      let a1 ← applyEqFilters p1 sr a
      let a5 ← midStages e a1
      normalizeLoudness e.target_lufs a5)

theorem lfilterAux_length (c : Biquad) (z : ℝ × ℝ) (x : List ℝ) :
    (lfilterAux c z x).length = x.length := by
  induction x generalizing z with
  | nil => rfl
  | cons a l ih => obtain ⟨z0, z1⟩ := z; simp [lfilterAux, ih]

theorem oddExt_length (x : List ℝ) : (oddExt x).length = x.length + 18 := by
  simp [oddExt]; ring

theorem filtfiltCore_length (c : Biquad) (x : List ℝ) :
    (filtfiltCore c x).length = x.length := by
  simp [filtfiltCore, lfilterAux_length, oddExt_length]

/-! ### Numeric facts about the dB-derived constants -/

theorem rpow_ten_lt_iff {a b : ℝ} : (10:ℝ) ^ a < 10 ^ b ↔ a < b :=
  Real.rpow_lt_rpow_left_iff (by norm_num)

theorem rpow_ten_neg_one : (10:ℝ) ^ ((-1):ℝ) = 0.1 := by
  rw [show ((-1):ℝ) = ((-1 : ℤ) : ℝ) by norm_num, Real.rpow_intCast]
  norm_num

theorem rpow_ten_neg_two : (10:ℝ) ^ ((-2):ℝ) = 0.01 := by
  rw [show ((-2):ℝ) = ((-2 : ℤ) : ℝ) by norm_num, Real.rpow_intCast]
  norm_num

theorem compThreshold_pos : 0 < compThreshold :=
  Real.rpow_pos_of_pos (by norm_num) _

theorem compKnee_pos : 0 < compKnee :=
  Real.rpow_pos_of_pos (by norm_num) _

theorem one_lt_compKnee : 1 < compKnee := by
  have h : (10:ℝ) ^ (0:ℝ) < 10 ^ ((3:ℝ)/20) := rpow_ten_lt_iff.mpr (by norm_num)
  simpa [Real.rpow_zero] using h

theorem tenth_lt_compThreshold : 0.1 < compThreshold := by
  have h : (10:ℝ) ^ ((-1):ℝ) < 10 ^ ((-18:ℝ)/20) := rpow_ten_lt_iff.mpr (by norm_num)
  rw [rpow_ten_neg_one] at h
  exact h

theorem compThreshold_div_knee : compThreshold / compKnee = (10:ℝ) ^ ((-21:ℝ)/20) := by
  rw [compThreshold, compKnee, ← Real.rpow_sub (by norm_num)]
  norm_num

theorem hundredth_lt_compThreshold_div_knee : 0.01 < compThreshold / compKnee := by
  rw [compThreshold_div_knee]
  have h : (10:ℝ) ^ ((-2):ℝ) < 10 ^ ((-21:ℝ)/20) := rpow_ten_lt_iff.mpr (by norm_num)
  rw [rpow_ten_neg_two] at h
  exact h

theorem compThreshold_div_knee_lt_self : compThreshold / compKnee < compThreshold := by
  rw [compThreshold_div_knee, compThreshold]
  exact rpow_ten_lt_iff.mpr (by norm_num)

theorem compMakeup_pos : 0 < compMakeup :=
  Real.rpow_pos_of_pos (by norm_num) _

theorem limThreshold_pos : 0 < limThreshold :=
  Real.rpow_pos_of_pos (by norm_num) _

theorem limThreshold_lt_one : limThreshold < 1 := by
  have h : (10:ℝ) ^ ((-0.5:ℝ)/20) < 10 ^ (0:ℝ) := rpow_ten_lt_iff.mpr (by norm_num)
  simpa [limThreshold, Real.rpow_zero] using h

theorem half_lt_limThreshold : 1/2 < limThreshold := by
  have hlt : (10:ℝ) ^ ((1:ℝ)/40) < 2 := by
    by_contra hc
    push_neg at hc
    have h40 : ((10:ℝ) ^ ((1:ℝ)/40)) ^ (40:ℕ) = 10 := by
      rw [← Real.rpow_natCast ((10:ℝ) ^ ((1:ℝ)/40)) 40, ← Real.rpow_mul (by norm_num)]
      norm_num
    have hpow : (2:ℝ) ^ (40:ℕ) ≤ ((10:ℝ) ^ ((1:ℝ)/40)) ^ (40:ℕ) :=
      pow_le_pow_left (by norm_num) hc 40
    rw [h40] at hpow
    norm_num at hpow
  have heq : limThreshold = ((10:ℝ) ^ ((1:ℝ)/40))⁻¹ := by
    rw [limThreshold, show ((-0.5:ℝ)/20) = -((1:ℝ)/40) by norm_num,
      Real.rpow_neg (by norm_num)]
  rw [heq, show (1:ℝ)/2 = (2:ℝ)⁻¹ by norm_num]
  exact inv_lt_inv_of_lt (Real.rpow_pos_of_pos (by norm_num) _) hlt

theorem limReleaseSamples_22050 : limReleaseSamples 22050 = 110 := by
  rw [limReleaseSamples, Int.floor_eq_iff] <;> norm_num

theorem lookaheadSamples_22050 : lookaheadSamples 22050 = 44 := by
  rw [lookaheadSamples, show ⌊(0.002:ℝ) * 22050⌋ = 44 by rw [Int.floor_eq_iff] <;> norm_num]
  rfl

theorem limAlpha_pos : 0 < limAlpha 22050 := Real.exp_pos _

theorem limAlpha_lt_one : limAlpha 22050 < 1 := by
  rw [limAlpha, limReleaseSamples_22050, Real.exp_lt_one_iff]
  norm_num

theorem limAlpha_le : limAlpha 22050 ≤ 110 / 111 := by
  rw [limAlpha, limReleaseSamples_22050]
  have h : (1:ℝ)/110 + 1 ≤ Real.exp ((1:ℝ)/110) := Real.add_one_le_exp _
  have hx : Real.exp (-1 / ((110:ℤ):ℝ)) = (Real.exp ((1:ℝ)/110))⁻¹ := by
    rw [show (-1 / ((110:ℤ):ℝ)) = -((1:ℝ)/110) by norm_num, Real.exp_neg]
  rw [hx, show (110:ℝ)/111 = ((111:ℝ)/110)⁻¹ by norm_num]
  exact inv_le_inv_of_le (by norm_num) (by linarith)

/-! ### Limiter lemmas -/

theorem foldr_max_nonneg (l : List ℝ) : 0 ≤ l.foldr max 0 := by
  induction l with
  | nil => simp
  | cons a t ih => simp only [List.foldr_cons]; exact le_trans ih (le_max_right _ _)

theorem windowPeak_nonneg (x : List ℝ) (i look : ℕ) : 0 ≤ windowPeak x i look :=
  foldr_max_nonneg _

theorem getD_le_windowPeak (x : List ℝ) (i look : ℕ) (h : i < x.length)
    (hl : 0 < look) : |x.getD i 0| ≤ windowPeak x i look := by
  rw [List.getD_eq_getElem _ _ h]
  unfold windowPeak
  rw [List.drop_eq_getElem_cons h]
  obtain ⟨m, rfl⟩ : ∃ m, look = m + 1 := ⟨look - 1, by omega⟩
  simp only [List.take_succ_cons, List.map_cons, List.foldr_cons]
  exact le_max_left _ _

theorem applyLimiting_length (sr : ℝ) (x : List ℝ) :
    (applyLimiting sr x).length = x.length := by
  simp [applyLimiting]

theorem applyLimiting_getD (sr : ℝ) (x : List ℝ) (i : ℕ) (h : i < x.length) :
    (applyLimiting sr x).getD i 0 = limitSample sr x i := by
  rw [applyLimiting, List.getD_eq_getElem _ _ (by simpa using h)]
  simp

/-- C9: whenever the lookahead-window peak at index `i` does not exceed the
linear limiter threshold, `_apply_limiting` leaves that sample unchanged:
`output[i] = input[i]` exactly. -/
theorem limiting_identity_below_threshold (x : List ℝ) (i : ℕ) (h : i < x.length)
    (hp : windowPeak x i (lookaheadSamples 22050) ≤ limThreshold) :
    (applyLimiting 22050 x).getD i 0 = x.getD i 0 := by
  rw [applyLimiting_getD 22050 x i h, limitSample, if_neg (not_lt.mpr hp)]

/-- Witness for C9 at the concrete buffer `[1/2]`, index 0. -/
theorem limiting_identity_below_threshold_witness :
    windowPeak [(1/2:ℝ)] 0 (lookaheadSamples 22050) ≤ limThreshold ∧
      (applyLimiting 22050 [(1/2:ℝ)]).getD 0 0 = (1/2:ℝ) := by
  have hp : windowPeak [(1/2:ℝ)] 0 (lookaheadSamples 22050) ≤ limThreshold := by
    rw [windowPeak, lookaheadSamples_22050]
    simp only [List.drop_zero]
    rw [List.take_of_length_le (by simp)]
    simp only [List.map_cons, List.map_nil, List.foldr_cons, List.foldr_nil]
    rw [abs_of_nonneg (by norm_num)]
    rw [max_eq_left (by norm_num)]
    exact le_of_lt half_lt_limThreshold
  refine ⟨hp, ?_⟩
  have h := limiting_identity_below_threshold [(1/2:ℝ)] 0 (by simp) hp
  simpa using h

/-- C1 (as written) is false: with input `[0, 1000]`, the sample at index 1
comes out strictly greater than `limThreshold + 8`, far above the claimed
`threshold + ε` bound, because the release blend toward unity gain is also
applied on the attack side for every index `i > 0`. -/
theorem limiting_overshoots_threshold :
    limThreshold + 8 < (applyLimiting 22050 [(0:ℝ), 1000]).getD 1 0 ∧
      limThreshold < 1 := by
  constructor
  · rw [applyLimiting_getD 22050 [(0:ℝ), 1000] 1 (by simp)]
    have hpk : windowPeak [(0:ℝ), 1000] 1 (lookaheadSamples 22050) = 1000 := by
      rw [windowPeak, lookaheadSamples_22050]
      simp only [List.drop_succ_cons, List.drop_zero]
      rw [List.take_of_length_le (by simp)]
      simp only [List.map_cons, List.map_nil, List.foldr_cons, List.foldr_nil]
      rw [abs_of_nonneg (by norm_num), max_eq_left (by norm_num)]
    rw [limitSample, hpk,
      if_pos (lt_trans limThreshold_lt_one (by norm_num : (1:ℝ) < 1000)),
      if_pos (by norm_num : 0 < 1)]
    have hval : ([(0:ℝ), 1000].getD 1 0) = (1000:ℝ) := by simp
    rw [hval]
    have hexpand : (1000:ℝ) * (limAlpha 22050 * (limThreshold / 1000) +
        (1 - limAlpha 22050) * 1.0) =
        limAlpha 22050 * limThreshold + 1000 * (1 - limAlpha 22050) := by
      ring
    rw [hexpand]
    have h1 : 0 ≤ limAlpha 22050 * limThreshold :=
      mul_nonneg (le_of_lt limAlpha_pos) (le_of_lt limThreshold_pos)
    have h2 : (1000:ℝ) * (1 - limAlpha 22050) ≥ 1000 * (1/111) := by
      have := limAlpha_le
      nlinarith
    have h3 : limThreshold < 1 := limThreshold_lt_one
    nlinarith
  · exact limThreshold_lt_one

/-- C1 amended: `_apply_limiting` caps each output sample, not by the
threshold, but by `max threshold (α·threshold + (1-α)·windowPeak)`: below
threshold the sample passes unchanged (so is bounded by the window peak and
hence the threshold); at index 0 the attack gain `threshold/peak` is applied
unsmoothed, giving the threshold bound; for every later index the gain is
blended toward 1 by the release coefficient `α`, so the output can exceed
the threshold by `(1-α)·(peak - threshold)`. -/
theorem limiting_output_bound (x : List ℝ) (i : ℕ) (h : i < x.length) :
    |(applyLimiting 22050 x).getD i 0| ≤
      max limThreshold (limAlpha 22050 * limThreshold +
        (1 - limAlpha 22050) * windowPeak x i (lookaheadSamples 22050)) := by
  rw [applyLimiting_getD 22050 x i h, limitSample]
  set pk := windowPeak x i (lookaheadSamples 22050) with hpk
  have hxle : |x.getD i 0| ≤ pk :=
    getD_le_windowPeak x i _ h (by rw [lookaheadSamples_22050]; norm_num)
  by_cases hc : limThreshold < pk
  · rw [if_pos hc]
    have hpkpos : 0 < pk := lt_trans limThreshold_pos hc
    by_cases hi : 0 < i
    · rw [if_pos hi]
      have hgain : 0 ≤ limAlpha 22050 * (limThreshold / pk) + (1 - limAlpha 22050) * 1.0 := by
        have := limAlpha_pos
        have := limAlpha_lt_one
        have : 0 ≤ limThreshold / pk := div_nonneg (le_of_lt limThreshold_pos) (le_of_lt hpkpos)
        nlinarith
      rw [abs_mul, abs_of_nonneg hgain]
      refine le_trans (mul_le_mul_of_nonneg_right hxle hgain) ?_
      have hne : pk ≠ 0 := ne_of_gt hpkpos
      have hexp : pk * (limAlpha 22050 * (limThreshold / pk) + (1 - limAlpha 22050) * 1.0) =
          limAlpha 22050 * limThreshold * (pk / pk) + (1 - limAlpha 22050) * pk := by
        ring
      rw [hexp, div_self hne, mul_one]
      exact le_max_right _ _
    · rw [if_neg hi]
      have hgain : 0 ≤ limThreshold / pk :=
        div_nonneg (le_of_lt limThreshold_pos) (le_of_lt hpkpos)
      rw [abs_mul, abs_of_nonneg hgain]
      refine le_trans (mul_le_mul_of_nonneg_right hxle hgain) ?_
      rw [mul_comm, div_mul_cancel₀ _ (ne_of_gt hpkpos)]
      exact le_max_left _ _
  · rw [if_neg hc]
    push_neg at hc
    exact le_max_of_le_left (le_trans hxle hc)

/-- Witness for the amended C1 at the concrete buffer `[1/2]`, index 0. -/
theorem limiting_output_bound_witness :
    (0:ℕ) < ([(1/2:ℝ)]).length ∧
      |(applyLimiting 22050 [(1/2:ℝ)]).getD 0 0| ≤
        max limThreshold (limAlpha 22050 * limThreshold +
          (1 - limAlpha 22050) * windowPeak [(1/2:ℝ)] 0 (lookaheadSamples 22050)) :=
  ⟨by simp, limiting_output_bound [(1/2:ℝ)] 0 (by simp)⟩

/-! ### Compressor lemmas -/

theorem compThreshold_lt_one : compThreshold < 1 := by
  have h : (10:ℝ) ^ ((-18:ℝ)/20) < 10 ^ (0:ℝ) := rpow_ten_lt_iff.mpr (by norm_num)
  simpa [compThreshold, Real.rpow_zero] using h

theorem compThreshold_div_knee_lt_tenth : compThreshold / compKnee < 0.1 := by
  rw [compThreshold_div_knee]
  have h : (10:ℝ) ^ ((-21:ℝ)/20) < 10 ^ ((-1):ℝ) := rpow_ten_lt_iff.mpr (by norm_num)
  rw [rpow_ten_neg_one] at h
  exact h

theorem smoothAux_length (aa ar prev : ℝ) (l : List ℝ) :
    (smoothAux aa ar prev l).length = l.length := by
  induction l generalizing prev with
  | nil => rfl
  | cons e es ih => simp [smoothAux, ih]

theorem smoothedEnvelope_length (sr : ℝ) (x : List ℝ) :
    (smoothedEnvelope sr x).length = x.length := by
  rw [smoothedEnvelope]
  cases x with
  | nil => rfl
  | cons a l => simp [smoothAux_length]

theorem gainReduction_eq_one {env : ℝ} (h : env < compThreshold / compKnee) :
    gainReduction env = 1 := by
  have hlt : env < compThreshold :=
    lt_trans h compThreshold_div_knee_lt_self
  rw [gainReduction, if_neg (by tauto), if_neg (not_lt.mpr (le_of_lt hlt))]

theorem zipWith_gain_one (s x : List ℝ) (hlen : s.length = x.length)
    (h1 : ∀ a ∈ s, gainReduction a = 1) :
    List.zipWith (fun xi si => xi * gainReduction si * compMakeup) x s =
      x.map (fun v => compMakeup * v) := by
  induction x generalizing s with
  | nil => simp
  | cons a l ih =>
      cases s with
      | nil => simp at hlen
      | cons b t =>
          simp only [List.zipWith_cons_cons, List.map_cons, List.cons.injEq]
          exact ⟨by rw [h1 b (by simp)]; ring,
            ih t (by simpa using hlen) (fun a ha => h1 a (by simp [ha]))⟩

/-- C6: the compressor's per-sample gain is a total function of the smoothed
envelope: it is 1 strictly below `threshold/knee` (in particular at envelope
exactly 0, so no division by zero reaches the output), and equals
`(T + (env - T)/ratio)/env` strictly above the linear threshold `T`. -/
theorem gainReduction_total (env : ℝ) :
    (env < compThreshold / compKnee → gainReduction env = 1) ∧
    gainReduction 0 = 1 ∧
    (compThreshold < env →
      gainReduction env = (compThreshold + (env - compThreshold) / compRatio) / env) := by
  refine ⟨fun h => gainReduction_eq_one h, ?_, fun h => ?_⟩
  · exact gainReduction_eq_one (div_pos compThreshold_pos compKnee_pos)
  · rw [gainReduction, if_neg (by tauto), if_pos h, hardCompressed, add_comm]

/-- Witness for C6 at envelopes 0 and 1. -/
theorem gainReduction_total_witness :
    gainReduction 0 = 1 ∧ compThreshold < 1 ∧
      gainReduction 1 = (compThreshold + (1 - compThreshold) / compRatio) / 1 :=
  ⟨(gainReduction_total 0).2.1, compThreshold_lt_one,
    (gainReduction_total 1).2.2 compThreshold_lt_one⟩

/-- C3 (as written) is false: the constant buffer `[0.1]` has smoothed
envelope `[0.1]`, which never exceeds the linear threshold, yet the
compressor output differs from `makeup_gain * input` because `0.1` falls in
the soft-knee region `[threshold/knee, threshold]` where the gain is not 1. -/
theorem compression_not_transparent_at_knee :
    smoothedEnvelope 22050 [(0.1:ℝ)] = [0.1] ∧
    (0.1:ℝ) ≤ compThreshold ∧
    applyCompression 22050 [(0.1:ℝ)] ≠ [(0.1:ℝ)].map (fun v => compMakeup * v) := by
  have henv : smoothedEnvelope 22050 [(0.1:ℝ)] = [0.1] := by
    simp [smoothedEnvelope, smoothAux, abs_of_nonneg (by norm_num : (0:ℝ) ≤ 0.1)]
  refine ⟨henv, le_of_lt tenth_lt_compThreshold, ?_⟩
  rw [applyCompression, henv]
  simp only [List.zipWith_cons_cons, List.zipWith_nil_right, List.map_cons, List.map_nil,
    List.zipWith_nil_left, ne_eq, List.cons.injEq, and_true, not_and]
  intro heq
  have hg : gainReduction 0.1 = softCompressed 0.1 / 0.1 := by
    rw [gainReduction,
      if_pos ⟨not_lt.mpr (le_of_lt compThreshold_div_knee_lt_tenth),
        not_lt.mpr (le_of_lt tenth_lt_compThreshold)⟩]
  have hsub : (0.1:ℝ) - compThreshold ≠ 0 :=
    ne_of_lt (by linarith [tenth_lt_compThreshold])
  have hnum : (1 / compRatio - 1) * ((0.1:ℝ) - compThreshold) ^ 2 < 0 := by
    have hsq : 0 < ((0.1:ℝ) - compThreshold) ^ 2 := pow_two_pos_of_ne_zero hsub
    have : (1 / compRatio - 1) < 0 := by rw [compRatio]; norm_num
    nlinarith
  have hden : 0 < 2 * compThreshold * (compKnee - 1) := by
    have := compThreshold_pos
    have := one_lt_compKnee
    nlinarith
  have hsoft : softCompressed 0.1 < 0.1 := by
    rw [softCompressed]
    have : (1 / compRatio - 1) * ((0.1:ℝ) - compThreshold) ^ 2 /
        (2 * compThreshold * (compKnee - 1)) < 0 := div_neg_of_neg_of_pos hnum hden
    linarith
  have hglt : gainReduction 0.1 < 1 := by
    rw [hg]
    exact (div_lt_one (by norm_num)).mpr hsoft
  have hlt : (0.1:ℝ) * gainReduction 0.1 * compMakeup < compMakeup * 0.1 := by
    have := compMakeup_pos
    nlinarith
  exact absurd heq (ne_of_lt hlt)

/-- C3 amended: compressor transparency holds on the region where the gain
really is 1, namely when the smoothed envelope stays strictly below
`threshold/knee` (below the soft-knee region, not merely below the
threshold): there the output is exactly `makeup_gain * input`. -/
theorem compression_transparent_below_knee (x : List ℝ)
    (h : ∀ s ∈ smoothedEnvelope 22050 x, s < compThreshold / compKnee) :
    applyCompression 22050 x = x.map (fun v => compMakeup * v) := by
  rw [applyCompression]
  exact zipWith_gain_one _ _ (smoothedEnvelope_length 22050 x)
    (fun a ha => gainReduction_eq_one (h a ha))

/-- Witness for the amended C3 at the concrete buffer `[0.01, 0.01]`. -/
theorem compression_transparent_below_knee_witness :
    (∀ s ∈ smoothedEnvelope 22050 [(0.01:ℝ), 0.01], s < compThreshold / compKnee) ∧
      applyCompression 22050 [(0.01:ℝ), 0.01] =
        [(0.01:ℝ), 0.01].map (fun v => compMakeup * v) := by
  have hev : smoothedEnvelope 22050 [(0.01:ℝ), 0.01] = [0.01, 0.01] := by
    simp only [smoothedEnvelope, List.map_cons, List.map_nil, smoothAux]
    rw [abs_of_nonneg (by norm_num : (0:ℝ) ≤ 0.01)]
    rw [if_neg (lt_irrefl (0.01:ℝ))]
    simp only [List.cons.injEq, and_true, true_and]
    ring
  have hs : ∀ s ∈ smoothedEnvelope 22050 [(0.01:ℝ), 0.01],
      s < compThreshold / compKnee := by
    intro s hsm
    rw [hev] at hsm
    simp at hsm
    rw [hsm]
    linarith [hundredth_lt_compThreshold_div_knee]
  exact ⟨hs, compression_transparent_below_knee _ hs⟩

/-! ### Adaptive-EQ retune lemmas -/

theorem retuneEq_dark {c : ℝ} (h : c < 1000) (p : EqParams) :
    retuneEq c p =
      { p with high_mid := { p.high_mid with gain := 1.5 },
               high_shelf := { p.high_shelf with gain := 2.0 } } := by
  rw [retuneEq, if_pos h]

theorem retuneEq_bright {c : ℝ} (h : 4000 < c) (p : EqParams) :
    retuneEq c p = { p with low_mid := { p.low_mid with gain := 1.0 } } := by
  rw [retuneEq, if_neg (by push_neg; linarith), if_pos h]

theorem retuneEq_mid {c : ℝ} (h1 : 1000 ≤ c) (h2 : c ≤ 4000) (p : EqParams) :
    retuneEq c p = p := by
  rw [retuneEq, if_neg (not_lt.mpr h1), if_neg (not_lt.mpr h2)]

theorem retuneEq_idem (c : ℝ) (p : EqParams) :
    retuneEq c (retuneEq c p) = retuneEq c p := by
  rcases lt_or_le c 1000 with h | h1
  · rw [retuneEq_dark h, retuneEq_dark h]
  · rcases le_or_lt c 4000 with h2 | h2
    · rw [retuneEq_mid h1 h2, retuneEq_mid h1 h2]
    · rw [retuneEq_bright h2, retuneEq_bright h2]

/-- C4 (as written) is false: a second dark-signal analysis call does not
boost `high_mid` by a further +1.5 dB relative to its prior value 1.5; the
gain is assigned, not incremented. -/
theorem retune_does_not_accumulate :
    (retuneEq 500 (retuneEq 500 initEqParams)).high_mid.gain ≠
      (retuneEq 500 initEqParams).high_mid.gain + 1.5 := by
  rw [retuneEq_idem]
  rw [retuneEq_dark (by norm_num : (500:ℝ) < 1000)]
  norm_num

/-- C4 amended: on each EQ analysis call, a centroid below 1000 Hz *sets*
`high_mid` gain to 1.5 dB and `high_shelf` gain to 2.0 dB (leaving their
frequency and Q and every other band untouched); a centroid above 4000 Hz
*sets* `low_mid` gain to 1.0 dB; otherwise every band keeps its prior
parameters. -/
theorem retune_assigns_fixed_gains (c : ℝ) (p : EqParams) :
    (c < 1000 →
      (retuneEq c p).high_mid.gain = 1.5 ∧
      (retuneEq c p).high_shelf.gain = 2.0 ∧
      (retuneEq c p).low_shelf = p.low_shelf ∧
      (retuneEq c p).low_mid = p.low_mid ∧
      (retuneEq c p).mid = p.mid ∧
      (retuneEq c p).high_mid.freq = p.high_mid.freq ∧
      (retuneEq c p).high_mid.q = p.high_mid.q ∧
      (retuneEq c p).high_shelf.freq = p.high_shelf.freq ∧
      (retuneEq c p).high_shelf.q = p.high_shelf.q) ∧
    (4000 < c →
      (retuneEq c p).low_mid.gain = 1.0 ∧
      (retuneEq c p).low_shelf = p.low_shelf ∧
      (retuneEq c p).mid = p.mid ∧
      (retuneEq c p).high_mid = p.high_mid ∧
      (retuneEq c p).high_shelf = p.high_shelf ∧
      (retuneEq c p).low_mid.freq = p.low_mid.freq ∧
      (retuneEq c p).low_mid.q = p.low_mid.q) ∧
    (1000 ≤ c → c ≤ 4000 → retuneEq c p = p) := by
  refine ⟨fun h => ?_, fun h => ?_, fun h1 h2 => retuneEq_mid h1 h2 p⟩
  · rw [retuneEq_dark h]
    exact ⟨rfl, rfl, rfl, rfl, rfl, rfl, rfl, rfl, rfl⟩
  · rw [retuneEq_bright h]
    exact ⟨rfl, rfl, rfl, rfl, rfl, rfl, rfl⟩

/-- Witness for the amended C4 at centroid 500 (dark) over the initial bands. -/
theorem retune_assigns_fixed_gains_witness :
    (retuneEq 500 initEqParams).high_mid.gain = 1.5 ∧
      (retuneEq 500 initEqParams).high_shelf.gain = 2.0 ∧
      (retuneEq 5000 initEqParams).low_mid.gain = 1.0 := by
  have hd := (retune_assigns_fixed_gains 500 initEqParams).1 (by norm_num)
  have hb := ((retune_assigns_fixed_gains 5000 initEqParams).2.1 (by norm_num)).1
  exact ⟨hd.1, hd.2.1, hb⟩

/-- C10: the retune step is idempotent and non-accumulating: iterating the
analysis any number of further times on a buffer of the same centroid class
leaves the band table exactly where one application put it, with the
affected gains pinned at the fixed assigned values. -/
theorem retune_iterate_fixed (c : ℝ) (p : EqParams) (n : ℕ) :
    (retuneEq c)^[n] (retuneEq c p) = retuneEq c p ∧
    (c < 1000 → ((retuneEq c)^[n] (retuneEq c p)).high_mid.gain = 1.5 ∧
      ((retuneEq c)^[n] (retuneEq c p)).high_shelf.gain = 2.0) ∧
    (4000 < c → ((retuneEq c)^[n] (retuneEq c p)).low_mid.gain = 1.0) := by
  have hfix : (retuneEq c)^[n] (retuneEq c p) = retuneEq c p :=
    Function.iterate_fixed (retuneEq_idem c p) n
  refine ⟨hfix, fun h => ?_, fun h => ?_⟩
  · rw [hfix, retuneEq_dark h]
    exact ⟨rfl, rfl⟩
  · rw [hfix, retuneEq_bright h]

/-- Witness for C10: three extra dark-class analyses after the first leave
`high_mid` at exactly 1.5. -/
theorem retune_iterate_fixed_witness :
    (retuneEq 500)^[3] (retuneEq 500 initEqParams) = retuneEq 500 initEqParams ∧
      ((retuneEq 500)^[3] (retuneEq 500 initEqParams)).high_mid.gain = 1.5 :=
  ⟨(retune_iterate_fixed 500 initEqParams 3).1,
    ((retune_iterate_fixed 500 initEqParams 3).2.1 (by norm_num)).1⟩

/-! ### Validation lemmas -/

theorem maxAbs_map_mul (k : ℝ) (a : List ℝ) :
    maxAbs (a.map fun v => k * v) = |k| * maxAbs a := by
  induction a with
  | nil => simp [maxAbs]
  | cons v t ih =>
      simp only [maxAbs, List.map_cons, List.foldr_cons] at ih ⊢
      rw [abs_mul, ih, mul_max_of_nonneg _ _ (abs_nonneg k)]

theorem maxAbs_rescaled (a : List ℝ) (hm : 1 < maxAbs a) :
    maxAbs (a.map fun v => v / maxAbs a * 0.95) = 0.95 := by
  have hpos : 0 < maxAbs a := lt_trans one_pos hm
  have hfun : (fun v : ℝ => v / maxAbs a * 0.95) = fun v : ℝ => (0.95 / maxAbs a) * v := by
    funext v
    ring
  rw [hfun, maxAbs_map_mul, abs_of_nonneg (by positivity)]
  field_simp

/-- C5: validation replaces every non-finite sample by zero; a sanitized
peak below `1e-10` aborts the whole `master_track` call with the
"Input audio is silent" failure, returning the band table untouched and no
buffer; a peak above 1.0 is rescaled so the new peak is exactly 0.95; and
any other buffer passes through validation unchanged. -/
theorem validation_behavior (x : List FSample) (hx : x ≠ []) :
    (nanToNum .nan = 0 ∧ nanToNum .pinf = 0 ∧ nanToNum .ninf = 0) ∧
    (maxAbs (x.map nanToNum) < 1e-10 →
      validateInput x = .error "Input audio is silent" ∧
      ∀ (f : ℝ → List ℝ → ℝ) (e : Engine) (p : EqParams) (sr : ℝ),
        masterTrack f e p sr x = (p, .error "Input audio is silent")) ∧
    (1 < maxAbs (x.map nanToNum) →
      validateInput x =
        .ok ((x.map nanToNum).map fun v => v / maxAbs (x.map nanToNum) * 0.95) ∧
      maxAbs ((x.map nanToNum).map fun v => v / maxAbs (x.map nanToNum) * 0.95) = 0.95) ∧
    (1e-10 ≤ maxAbs (x.map nanToNum) → maxAbs (x.map nanToNum) ≤ 1 →
      validateInput x = .ok (x.map nanToNum)) := by
  refine ⟨⟨rfl, rfl, rfl⟩, fun hsil => ?_, fun hbig => ?_, fun hlo hhi => ?_⟩
  · have hv : validateInput x = .error "Input audio is silent" := by
      rw [validateInput, if_pos hsil]
    exact ⟨hv, fun f e p sr => by rw [masterTrack, hv]⟩
  · refine ⟨?_, maxAbs_rescaled _ hbig⟩
    rw [validateInput, if_neg (not_lt.mpr (by linarith)), if_pos hbig]
  · rw [validateInput, if_neg (not_lt.mpr hlo), if_neg (not_lt.mpr hhi)]

/-- Witness for C5: a single-NaN buffer takes the silent-rejection branch,
and the buffer `[2.0]` is rescaled to peak 0.95. -/
theorem validation_behavior_witness :
    validateInput [FSample.nan] = .error "Input audio is silent" ∧
      maxAbs (([FSample.fin 2].map nanToNum).map
        fun v => v / maxAbs ([FSample.fin 2].map nanToNum) * 0.95) = 0.95 := by
  have hnan : maxAbs ([FSample.nan].map nanToNum) < 1e-10 := by
    norm_num [maxAbs, nanToNum]
  have htwo : (1:ℝ) < maxAbs ([FSample.fin 2].map nanToNum) := by
    norm_num [maxAbs, nanToNum]
  exact ⟨((validation_behavior [FSample.nan] (by simp)).2.1 hnan).1,
    ((validation_behavior [FSample.fin 2] (by simp)).2.2.1 htwo).2⟩

/-! ### Sample-rate independence of the midsection -/

/-- C8: the compression, stereo-enhancement, and limiting stages are
independent of everything the caller can choose: `master_track` invokes
them (see `midStages` in `masterTrack`) on the engine's internal sample
rate only, `__init__` pins that rate at 22050 regardless of the constructor
arguments, and the attack/release/lookahead/delay sample counts evaluate to
the fixed values 220, 2205, 44, 110 and 22 derived from 22050; hence two
calls differing only in the `sample_rate` argument drive these three stages
with identical functions. -/
theorem mid_stages_sample_rate_independent (tl₁ tp₁ tl₂ tp₂ : ℝ) (a : List ℝ) :
    (initEngine tl₁ tp₁).sample_rate = 22050 ∧
    applyCompression (initEngine tl₁ tp₁).sample_rate a
      = applyCompression (initEngine tl₂ tp₂).sample_rate a ∧
    enhanceStereo (initEngine tl₁ tp₁).sample_rate a
      = enhanceStereo (initEngine tl₂ tp₂).sample_rate a ∧
    applyLimiting (initEngine tl₁ tp₁).sample_rate a
      = applyLimiting (initEngine tl₂ tp₂).sample_rate a ∧
    midStages (initEngine tl₁ tp₁) a = midStages (initEngine tl₂ tp₂) a ∧
    attackSamples (initEngine tl₁ tp₁).sample_rate = 220 ∧
    compReleaseSamples (initEngine tl₁ tp₁).sample_rate = 2205 ∧
    lookaheadSamples (initEngine tl₁ tp₁).sample_rate = 44 ∧
    limReleaseSamples (initEngine tl₁ tp₁).sample_rate = 110 ∧
    delaySamples (initEngine tl₁ tp₁).sample_rate = 22 := by
  refine ⟨rfl, rfl, rfl, rfl, rfl, ?_, ?_, ?_, ?_, ?_⟩
  · show attackSamples 22050 = 220
    rw [attackSamples, Int.floor_eq_iff] <;> norm_num
  · show compReleaseSamples 22050 = 2205
    rw [compReleaseSamples, Int.floor_eq_iff] <;> norm_num
  · exact lookaheadSamples_22050
  · exact limReleaseSamples_22050
  · show delaySamples 22050 = 22
    rw [delaySamples, show ⌊(0.001:ℝ) * 22050⌋ = 22 by rw [Int.floor_eq_iff] <;> norm_num]
    rfl

/-! ### Scaling (homogeneity) of the filter chain -/

theorem ok_bind {α β : Type} (a : α) (f : α → Except String β) :
    ((Except.ok a : Except String α) >>= f) = f a := rfl

theorem getD_map_mul (g : ℝ) (l : List ℝ) (i : ℕ) :
    (l.map fun v => g * v).getD i 0 = g * l.getD i 0 := by
  induction l generalizing i with
  | nil => simp
  | cons a t ih => cases i <;> simp_all

theorem headD_map_mul (g : ℝ) (l : List ℝ) :
    (l.map fun v => g * v).headD 0 = g * l.headD 0 := by
  cases l <;> simp

theorem getLastD_map_mul (g : ℝ) (l : List ℝ) :
    (l.map fun v => g * v).getLastD 0 = g * l.getLastD 0 := by
  induction l with
  | nil => simp
  | cons a t ih => cases t <;> simp_all

theorem lfilterAux_smul (c : Biquad) (g : ℝ) (l : List ℝ) : ∀ z0 z1 : ℝ,
    lfilterAux c (g * z0, g * z1) (l.map fun v => g * v) =
      (lfilterAux c (z0, z1) l).map fun v => g * v := by
  induction l with
  | nil => intro z0 z1; rfl
  | cons x xs ih =>
      intro z0 z1
      simp only [List.map_cons, lfilterAux, List.cons.injEq]
      refine ⟨by ring, ?_⟩
      have h1 : c.b1 * (g * x) - c.a1 * (c.b0 * (g * x) + g * z0) + g * z1 =
          g * (c.b1 * x - c.a1 * (c.b0 * x + z0) + z1) := by ring
      have h2 : c.b2 * (g * x) - c.a2 * (c.b0 * (g * x) + g * z0) =
          g * (c.b2 * x - c.a2 * (c.b0 * x + z0)) := by ring
      rw [h1, h2, ih]

theorem oddExt_smul (g : ℝ) (x : List ℝ) :
    oddExt (x.map fun v => g * v) = (oddExt x).map fun v => g * v := by
  rw [oddExt, oddExt, List.map_append, List.map_append, List.map_map, List.map_map]
  congr 1
  · congr 1
    apply List.map_congr_left
    intro j _
    simp only [Function.comp_apply]
    rw [headD_map_mul, getD_map_mul]
    ring
  · simp only [List.length_map]
    apply List.map_congr_left
    intro j _
    simp only [Function.comp_apply]
    rw [getLastD_map_mul, getD_map_mul]
    ring

theorem filtfiltCore_smul (c : Biquad) (g : ℝ) (x : List ℝ) :
    filtfiltCore c (x.map fun v => g * v) = (filtfiltCore c x).map fun v => g * v := by
  simp only [filtfiltCore, List.length_map]
  rw [oddExt_smul, headD_map_mul]
  have h1 : (lfilterZi c).1 * (g * (oddExt x).headD 0) =
      g * ((lfilterZi c).1 * (oddExt x).headD 0) := by ring
  have h2 : (lfilterZi c).2 * (g * (oddExt x).headD 0) =
      g * ((lfilterZi c).2 * (oddExt x).headD 0) := by ring
  rw [h1, h2, lfilterAux_smul, getLastD_map_mul]
  have h3 : (lfilterZi c).1 * (g * (lfilterAux c ((lfilterZi c).1 * (oddExt x).headD 0,
      (lfilterZi c).2 * (oddExt x).headD 0) (oddExt x)).getLastD 0) =
      g * ((lfilterZi c).1 * (lfilterAux c ((lfilterZi c).1 * (oddExt x).headD 0,
      (lfilterZi c).2 * (oddExt x).headD 0) (oddExt x)).getLastD 0) := by ring
  have h4 : (lfilterZi c).2 * (g * (lfilterAux c ((lfilterZi c).1 * (oddExt x).headD 0,
      (lfilterZi c).2 * (oddExt x).headD 0) (oddExt x)).getLastD 0) =
      g * ((lfilterZi c).2 * (lfilterAux c ((lfilterZi c).1 * (oddExt x).headD 0,
      (lfilterZi c).2 * (oddExt x).headD 0) (oddExt x)).getLastD 0) := by ring
  rw [h3, h4, ← List.map_reverse, lfilterAux_smul, ← List.map_reverse, ← List.map_drop,
    ← List.map_take]

theorem meanSquare_nonneg (x : List ℝ) : 0 ≤ meanSquare x := by
  rw [meanSquare]
  apply div_nonneg
  · apply List.sum_nonneg
    intro a ha
    obtain ⟨v, _, rfl⟩ := List.mem_map.mp ha
    positivity
  · positivity

theorem meanSquare_smul (g : ℝ) (x : List ℝ) :
    meanSquare (x.map fun v => g * v) = g ^ 2 * meanSquare x := by
  rw [meanSquare, meanSquare, List.map_map, List.length_map]
  have hmap : (List.map ((fun v => v ^ 2) ∘ fun v => g * v) x) =
      (x.map fun v => v ^ 2).map fun v => g ^ 2 * v := by
    rw [List.map_map]
    apply List.map_congr_left
    intro a _
    simp only [Function.comp_apply]
    ring
  rw [hmap]
  have hsum : ((x.map fun v => v ^ 2).map fun v => g ^ 2 * v).sum =
      g ^ 2 * (x.map fun v => v ^ 2).sum := by
    induction (x.map fun v => v ^ 2) with
    | nil => simp
    | cons a t ih => simp only [List.map_cons, List.sum_cons, ih]; ring
  rw [hsum, mul_div_assoc]

/-! ### Loudness measurement and normalization -/

theorem filtfilt_ok {c : Biquad} {x : List ℝ} (h : 9 < x.length) :
    filtfilt c x = .ok (filtfiltCore c x) := by
  rw [filtfilt, if_pos h]

theorem kWeighting_eval (x : List ℝ) (h : 9 < x.length) :
    kWeighting x = .ok (filtfiltCore hpCoeffs (filtfiltCore preCoeffs x)) := by
  rw [kWeighting, filtfilt_ok h, ok_bind]
  exact filtfilt_ok (by rw [filtfiltCore_length]; exact h)

theorem calculateLufs_eval (x : List ℝ) (h : 9 < x.length) :
    calculateLufs x = .ok (-0.691 + 10 * Real.logb 10
      (meanSquare (filtfiltCore hpCoeffs (filtfiltCore preCoeffs x)) + 1e-12)) := by
  rw [calculateLufs, kWeighting_eval x h, ok_bind]
  rfl

theorem normalizeLoudness_eval (t : ℝ) (x : List ℝ) (h : 9 < x.length) :
    normalizeLoudness t x = .ok (x.map fun v =>
      (10:ℝ) ^ ((t - (-0.691 + 10 * Real.logb 10
        (meanSquare (filtfiltCore hpCoeffs (filtfiltCore preCoeffs x)) + 1e-12))) / 20) * v) := by
  rw [normalizeLoudness, calculateLufs_eval x h, ok_bind]
  rfl

theorem lufs_algebra (t E : ℝ) (hE : 0 ≤ E) :
    -0.691 + 10 * Real.logb 10
      (((10:ℝ) ^ ((t - (-0.691 + 10 * Real.logb 10 (E + 1e-12))) / 20)) ^ 2 * E + 1e-12) =
    t + 10 * Real.logb 10
      (E / (E + 1e-12) + 1e-12 * (10:ℝ) ^ (-((t + 0.691) / 10))) := by
  have hEe : (0:ℝ) < E + 1e-12 := by linarith
  have hC : (0:ℝ) < (10:ℝ) ^ ((t + 0.691) / 10) := Real.rpow_pos_of_pos (by norm_num) _
  have hg2 : ((10:ℝ) ^ ((t - (-0.691 + 10 * Real.logb 10 (E + 1e-12))) / 20)) ^ 2 =
      (10:ℝ) ^ ((t + 0.691) / 10) / (E + 1e-12) := by
    rw [← Real.rpow_natCast ((10:ℝ) ^ ((t - (-0.691 + 10 * Real.logb 10 (E + 1e-12))) / 20)) 2,
      ← Real.rpow_mul (by norm_num)]
    rw [show (t - (-0.691 + 10 * Real.logb 10 (E + 1e-12))) / 20 * (2:ℕ) =
      (t + 0.691) / 10 - Real.logb 10 (E + 1e-12) by push_cast; ring]
    rw [Real.rpow_sub (by norm_num), Real.rpow_logb (by norm_num) (by norm_num) hEe]
  have hw : (0:ℝ) < E / (E + 1e-12) + 1e-12 * (10:ℝ) ^ (-((t + 0.691) / 10)) := by
    have h1 : 0 ≤ E / (E + 1e-12) := div_nonneg hE (le_of_lt hEe)
    have h2 : (0:ℝ) < 1e-12 * (10:ℝ) ^ (-((t + 0.691) / 10)) := by
      have := Real.rpow_pos_of_pos (show (0:ℝ) < 10 by norm_num) (-((t + 0.691) / 10))
      nlinarith
    linarith
  have hfac : (10:ℝ) ^ ((t + 0.691) / 10) / (E + 1e-12) * E + 1e-12 =
      (10:ℝ) ^ ((t + 0.691) / 10) *
        (E / (E + 1e-12) + 1e-12 * (10:ℝ) ^ (-((t + 0.691) / 10))) := by
    rw [Real.rpow_neg (by norm_num)]
    field_simp
    ring
  rw [hg2, hfac, Real.logb_mul (ne_of_gt hC) (ne_of_gt hw),
    Real.logb_rpow (by norm_num) (by norm_num)]
  ring

/-- C2 amended: because the whole filter chain is linear-homogeneous and the
gain is a pure scalar multiply, re-measuring the loudness of the output of
`_normalize_loudness` yields exactly
`target + 10*log10(E/(E + 1e-12) + 1e-12 * 10^(-(target+0.691)/10))`, where
`E` is the K-weighted mean square of the input and `1e-12` is the
regularizer `_calculate_lufs` adds inside the logarithm.  This is within
`1e-4` LUF of the target only when `E` is large relative to the
regularizer; it is not the exact identity the claim states for every
non-silent input. -/
theorem lufs_after_normalize (t : ℝ) (x : List ℝ) (h : 9 < x.length) :
    (normalizeLoudness t x >>= calculateLufs) =
      .ok (t + 10 * Real.logb 10
        (meanSquare (filtfiltCore hpCoeffs (filtfiltCore preCoeffs x)) /
          (meanSquare (filtfiltCore hpCoeffs (filtfiltCore preCoeffs x)) + 1e-12) +
         1e-12 * (10:ℝ) ^ (-((t + 0.691) / 10)))) := by
  rw [normalizeLoudness_eval t x h, ok_bind,
    calculateLufs_eval _ (by rw [List.length_map]; exact h),
    filtfiltCore_smul, filtfiltCore_smul, meanSquare_smul]
  exact congrArg Except.ok
    (lufs_algebra t (meanSquare (filtfiltCore hpCoeffs (filtfiltCore preCoeffs x)))
      (meanSquare_nonneg _))

/-- Witness for the amended C2 at the constant buffer of ten ones. -/
theorem lufs_after_normalize_witness :
    9 < (List.replicate 10 (1:ℝ)).length ∧
    (normalizeLoudness (-14) (List.replicate 10 (1:ℝ)) >>= calculateLufs) =
      .ok ((-14) + 10 * Real.logb 10
        (meanSquare (filtfiltCore hpCoeffs (filtfiltCore preCoeffs (List.replicate 10 (1:ℝ)))) /
          (meanSquare (filtfiltCore hpCoeffs (filtfiltCore preCoeffs (List.replicate 10 (1:ℝ)))) +
            1e-12) +
         1e-12 * (10:ℝ) ^ (-(((-14:ℝ) + 0.691) / 10)))) :=
  ⟨by simp, lufs_after_normalize (-14) (List.replicate 10 (1:ℝ)) (by simp)⟩

/-! ### Constant buffers through the filter chain -/

theorem headD_replicate (m : ℕ) (a : ℝ) : (List.replicate (m+1) a).headD 0 = a := by
  simp [List.replicate_succ]

theorem getLastD_replicate (m : ℕ) (a : ℝ) : (List.replicate (m+1) a).getLastD 0 = a := by
  induction m with
  | zero => rfl
  | succ p ih =>
      rw [List.replicate_succ, List.getLastD_cons]
      exact ih

theorem getD_replicate (n i : ℕ) (a : ℝ) (h : i < n) :
    (List.replicate n a).getD i 0 = a := by
  rw [List.getD_eq_getElem _ _ (by simpa using h)]
  simp

theorem lfilterAux_const (c : Biquad) (k : ℝ) (hS : 1 + c.a1 + c.a2 ≠ 0) : ∀ m : ℕ,
    lfilterAux c ((lfilterZi c).1 * k, (lfilterZi c).2 * k) (List.replicate m k) =
      List.replicate m ((c.b0 + c.b1 + c.b2) / (1 + c.a1 + c.a2) * k) := by
  have hy : c.b0 + (lfilterZi c).1 = (c.b0 + c.b1 + c.b2) / (1 + c.a1 + c.a2) := by
    simp only [lfilterZi]
    field_simp
    ring
  have hz1 : c.b1 - c.a1 * (c.b0 + (lfilterZi c).1) + (lfilterZi c).2 = (lfilterZi c).1 := by
    simp only [lfilterZi]
    field_simp
    ring
  have hz2 : c.b2 - c.a2 * (c.b0 + (lfilterZi c).1) = (lfilterZi c).2 := by
    simp only [lfilterZi]
    field_simp
    ring
  intro m
  induction m with
  | zero => rfl
  | succ p ih =>
      rw [List.replicate_succ, List.replicate_succ]
      simp only [lfilterAux, List.cons.injEq]
      constructor
      · rw [show c.b0 * k + (lfilterZi c).1 * k = (c.b0 + (lfilterZi c).1) * k by ring, hy]
      · rw [show c.b1 * k - c.a1 * (c.b0 * k + (lfilterZi c).1 * k) + (lfilterZi c).2 * k =
            (c.b1 - c.a1 * (c.b0 + (lfilterZi c).1) + (lfilterZi c).2) * k by ring, hz1]
        rw [show c.b2 * k - c.a2 * (c.b0 * k + (lfilterZi c).1 * k) =
            (c.b2 - c.a2 * (c.b0 + (lfilterZi c).1)) * k by ring, hz2]
        exact ih

theorem oddExt_replicate (n : ℕ) (k : ℝ) (h : 10 ≤ n) :
    oddExt (List.replicate n k) = List.replicate (n + 18) k := by
  have hh : (List.replicate n k).headD 0 = k := by
    obtain ⟨m, rfl⟩ : ∃ m, n = m + 1 := ⟨n - 1, by omega⟩
    exact headD_replicate m k
  have hl : (List.replicate n k).getLastD 0 = k := by
    obtain ⟨m, rfl⟩ : ∃ m, n = m + 1 := ⟨n - 1, by omega⟩
    exact getLastD_replicate m k
  rw [oddExt]
  have hleft : ((List.range 9).map fun j =>
      2 * (List.replicate n k).headD 0 - (List.replicate n k).getD (9 - j) 0) =
      List.replicate 9 k := by
    refine List.eq_replicate_iff.mpr ⟨by simp, ?_⟩
    intro b hb
    obtain ⟨j, hj, rfl⟩ := List.mem_map.mp hb
    rw [hh, getD_replicate n (9 - j) k (by omega)]
    ring
  have hright : ((List.range 9).map fun j =>
      2 * (List.replicate n k).getLastD 0 -
        (List.replicate n k).getD ((List.replicate n k).length - 2 - j) 0) =
      List.replicate 9 k := by
    refine List.eq_replicate_iff.mpr ⟨by simp, ?_⟩
    intro b hb
    obtain ⟨j, hj, rfl⟩ := List.mem_map.mp hb
    have hjr := List.mem_range.mp hj
    rw [hl, List.length_replicate, getD_replicate n (n - 2 - j) k (by omega)]
    ring
  rw [hleft, hright, ← List.replicate_add, ← List.replicate_add,
    show 9 + n + 9 = n + 18 by omega]

theorem filtfiltCore_replicate (c : Biquad) (n : ℕ) (k : ℝ) (h : 10 ≤ n)
    (hS : 1 + c.a1 + c.a2 ≠ 0) :
    filtfiltCore c (List.replicate n k) =
      List.replicate n ((c.b0 + c.b1 + c.b2) / (1 + c.a1 + c.a2) *
        ((c.b0 + c.b1 + c.b2) / (1 + c.a1 + c.a2) * k)) := by
  simp only [filtfiltCore, List.length_replicate]
  rw [oddExt_replicate n k h,
    show (List.replicate (n + 18) k).headD 0 = k from headD_replicate (n + 17) k,
    lfilterAux_const c k hS (n + 18),
    show (List.replicate (n + 18) ((c.b0 + c.b1 + c.b2) / (1 + c.a1 + c.a2) * k)).getLastD 0 =
      (c.b0 + c.b1 + c.b2) / (1 + c.a1 + c.a2) * k from getLastD_replicate (n + 17) _,
    List.reverse_replicate, lfilterAux_const c _ hS (n + 18), List.reverse_replicate,
    List.drop_replicate, List.take_replicate]
  rw [show n + 18 - 9 = n + 9 by omega, show min n (n + 9) = n by omega]

theorem kWeighting_replicate (n : ℕ) (k : ℝ) (h : 10 ≤ n) :
    kWeighting (List.replicate n k) = .ok (List.replicate n 0) := by
  rw [kWeighting, filtfilt_ok (by rw [List.length_replicate]; omega), ok_bind,
    filtfiltCore_replicate preCoeffs n k h (by norm_num [preCoeffs]),
    filtfilt_ok (by rw [List.length_replicate]; omega),
    filtfiltCore_replicate hpCoeffs n _ h (by norm_num [hpCoeffs])]
  norm_num [hpCoeffs]

theorem meanSquare_replicate_zero (n : ℕ) : meanSquare (List.replicate n 0) = 0 := by
  rw [meanSquare]
  simp

theorem logb_ten_em12 : Real.logb 10 ((1e-12):ℝ) = -12 := by
  rw [show (1e-12:ℝ) = (10:ℝ) ^ ((-12):ℝ) by
    rw [show ((-12):ℝ) = ((-12:ℤ):ℝ) by norm_num, Real.rpow_intCast]; norm_num]
  exact Real.logb_rpow (by norm_num) (by norm_num)

theorem calculateLufs_replicate (n : ℕ) (k : ℝ) (h : 10 ≤ n) :
    calculateLufs (List.replicate n k) = .ok (-120.691) := by
  rw [calculateLufs, kWeighting_replicate n k h, ok_bind]
  show Except.ok _ = _
  rw [meanSquare_replicate_zero, zero_add, logb_ten_em12]
  norm_num

theorem le_maxAbs_of_mem {a : ℝ} {l : List ℝ} (h : a ∈ l) : |a| ≤ maxAbs l := by
  induction l with
  | nil => simp at h
  | cons b t ih =>
      simp only [maxAbs, List.map_cons, List.foldr_cons]
      rcases List.mem_cons.mp h with rfl | h2
      · exact le_max_left _ _
      · exact le_trans (ih h2) (le_max_right _ _)

/-- C2 (as written) is false: the constant buffer of ten samples `1/2` is
non-silent (peak `1/2`), but K-weighting maps any constant buffer to the
zero buffer (the high-pass numerator `[1, -2, 1]` sums to zero), so the
measured loudness is pinned at `-0.691 + 10*log10(1e-12) = -120.691` both
before and after the corrective gain; re-measuring the normalized output
returns `-120.691`, more than 106 LUF away from the target `-14`. -/
theorem lufs_not_exact_for_low_energy :
    (1e-10:ℝ) ≤ maxAbs (List.replicate 10 ((1:ℝ)/2)) ∧
    (normalizeLoudness (-14) (List.replicate 10 ((1:ℝ)/2)) >>= calculateLufs) =
      .ok (-120.691) ∧
    ¬ |(-120.691:ℝ) - (-14)| ≤ 1e-4 := by
  refine ⟨?_, ?_, ?_⟩
  · have hmem : (1/2:ℝ) ∈ List.replicate 10 ((1:ℝ)/2) :=
      List.mem_replicate.mpr ⟨by norm_num, rfl⟩
    have hle := le_maxAbs_of_mem hmem
    rw [abs_of_nonneg (by norm_num : (0:ℝ) ≤ 1/2)] at hle
    linarith
  · rw [normalizeLoudness_eval (-14) _ (by simp), ok_bind, List.map_replicate,
      calculateLufs_replicate 10 _ (by norm_num)]
  · have habs : |(-120.691:ℝ) - (-14)| = 106.691 := by
      rw [show (-120.691:ℝ) - (-14) = -(106.691) by norm_num, abs_neg,
        abs_of_nonneg (by norm_num)]
    rw [habs]
    norm_num

/-! ### Length preservation through the pipeline -/

theorem error_bind {α β : Type} (msg : String) (f : α → Except String β) :
    ((Except.error msg : Except String α) >>= f) = .error msg := rfl

theorem validateInput_ok_length {x : List FSample} {a : List ℝ}
    (h : validateInput x = .ok a) : a.length = x.length := by
  simp only [validateInput] at h
  by_cases h1 : maxAbs (x.map nanToNum) < 1e-10
  · rw [if_pos h1] at h
    exact absurd h (by simp)
  · rw [if_neg h1] at h
    by_cases h2 : 1 < maxAbs (x.map nanToNum)
    · rw [if_pos h2] at h
      injection h with h3
      subst h3
      simp
    · rw [if_neg h2] at h
      injection h with h3
      subst h3
      simp

theorem applyLowShelf_ok (band : BandParams) (sr : ℝ) {a : List ℝ} (h : 9 < a.length) :
    ∃ b, applyLowShelf band sr a = .ok b ∧ b.length = a.length := by
  rw [applyLowShelf]
  split_ifs
  · exact ⟨_, filtfilt_ok h, filtfiltCore_length _ _⟩
  · exact ⟨a, rfl, rfl⟩

theorem applyPeaking_ok (band : BandParams) (sr : ℝ) {a : List ℝ} (h : 9 < a.length) :
    ∃ b, applyPeaking band sr a = .ok b ∧ b.length = a.length := by
  rw [applyPeaking]
  split_ifs
  · exact ⟨_, filtfilt_ok h, filtfiltCore_length _ _⟩
  · exact ⟨a, rfl, rfl⟩

theorem applyHighShelf_ok (band : BandParams) (sr : ℝ) {a : List ℝ} (h : 9 < a.length) :
    ∃ b, applyHighShelf band sr a = .ok b ∧ b.length = a.length := by
  rw [applyHighShelf]
  split_ifs
  · exact ⟨_, filtfilt_ok h, filtfiltCore_length _ _⟩
  · exact ⟨a, rfl, rfl⟩

theorem applyEqFilters_ok (p : EqParams) (sr : ℝ) (a : List ℝ) (h : 9 < a.length) :
    ∃ b, applyEqFilters p sr a = .ok b ∧ b.length = a.length := by
  obtain ⟨b1, h1, l1⟩ := applyLowShelf_ok p.low_shelf sr h
  obtain ⟨b2, h2, l2⟩ := applyPeaking_ok p.low_mid sr (l1 ▸ h)
  obtain ⟨b3, h3, l3⟩ := applyPeaking_ok p.mid sr (l2 ▸ l1 ▸ h)
  obtain ⟨b4, h4, l4⟩ := applyPeaking_ok p.high_mid sr (l3 ▸ l2 ▸ l1 ▸ h)
  obtain ⟨b5, h5, l5⟩ := applyHighShelf_ok p.high_shelf sr
    (l4 ▸ l3 ▸ l2 ▸ l1 ▸ h)
  refine ⟨b5, ?_, by omega⟩
  rw [applyEqFilters, h1, ok_bind, h2, ok_bind, h3, ok_bind, h4, ok_bind, h5]

theorem applyCompression_length (sr : ℝ) (x : List ℝ) :
    (applyCompression sr x).length = x.length := by
  rw [applyCompression, List.length_zipWith, smoothedEnvelope_length, min_self]

theorem applyHarmonicExcitation_length (x : List ℝ) :
    (applyHarmonicExcitation x).length = x.length := by
  simp [applyHarmonicExcitation]

theorem enhanceStereo_ok (sr : ℝ) (a : List ℝ) (h : 9 < a.length) :
    ∃ b, enhanceStereo sr a = .ok b ∧ b.length = a.length := by
  have hleft : (a.take (delaySamples sr) ++ a.take (a.length - delaySamples sr)).length
      = a.length := by
    simp only [List.length_append, List.length_take]
    omega
  refine ⟨List.zipWith (fun u v => (u + v) / 2)
      (filtfiltCore lowColor (a.take (delaySamples sr) ++ a.take (a.length - delaySamples sr)))
      (filtfiltCore highColor a), ?_, ?_⟩
  · rw [enhanceStereo, filtfilt_ok (by rw [hleft]; exact h), ok_bind,
      filtfilt_ok h, ok_bind]
    rfl
  · simp only [List.length_zipWith, filtfiltCore_length, hleft]
    omega

theorem midStages_ok (e : Engine) (a : List ℝ) (h : 9 < a.length) :
    ∃ b, midStages e a = .ok b ∧ b.length = a.length := by
  obtain ⟨b3, h3, l3⟩ := enhanceStereo_ok e.sample_rate
    (applyCompression e.sample_rate a) (by rw [applyCompression_length]; exact h)
  refine ⟨applyLimiting e.sample_rate (applyHarmonicExcitation b3), ?_, ?_⟩
  · rw [midStages, h3, ok_bind]
    rfl
  · rw [applyLimiting_length, applyHarmonicExcitation_length, l3, applyCompression_length]

/-- C7 amended: for every input accepted by validation whose sanitized
buffer has at least 10 samples, `master_track` succeeds and returns a mono
buffer of exactly the input's length — every stage preserves length.  (The
length proviso is forced: `scipy.signal.filtfilt` rejects inputs not longer
than its pad length 9, and the stereo-enhancement stage filters
unconditionally, so shorter valid buffers make `master_track` raise.) -/
theorem master_preserves_length (f : ℝ → List ℝ → ℝ) (e : Engine) (p : EqParams)
    (sr : ℝ) (x : List FSample) (a : List ℝ)
    (hv : validateInput x = .ok a) (hn : 10 ≤ a.length) :
    ∃ y, (masterTrack f e p sr x).2 = .ok y ∧ y.length = x.length := by
  have hlen : a.length = x.length := validateInput_ok_length hv
  simp only [masterTrack, hv]
  obtain ⟨b1, h1, l1⟩ := applyEqFilters_ok (retuneEq (f sr a) p) sr a (by omega)
  obtain ⟨b2, h2, l2⟩ := midStages_ok e b1 (by omega)
  rw [h1, ok_bind, h2, ok_bind, normalizeLoudness_eval _ _ (by omega)]
  exact ⟨_, rfl, by simp only [List.length_map]; omega⟩

/-- Witness for the amended C7: a valid 10-sample buffer of halves, mastered
with a neutral-centroid analysis, comes back with 10 samples. -/
theorem master_preserves_length_witness :
    validateInput (List.replicate 10 (FSample.fin (1/2))) = .ok (List.replicate 10 ((1:ℝ)/2)) ∧
    10 ≤ (List.replicate 10 ((1:ℝ)/2)).length ∧
    ∃ y, (masterTrack (fun _ _ => 2000) (initEngine (-14) (-1)) initEqParams 22050
        (List.replicate 10 (FSample.fin (1/2)))).2 = .ok y ∧
      y.length = (List.replicate 10 (FSample.fin (1/2))).length := by
  have hmap : (List.replicate 10 (FSample.fin (1/2))).map nanToNum =
      List.replicate 10 ((1:ℝ)/2) := by
    rw [List.map_replicate]
    rfl
  have hmax : maxAbs (List.replicate 10 ((1:ℝ)/2)) = 1/2 := by
    have hub : maxAbs (List.replicate 10 ((1:ℝ)/2)) ≤ 1/2 := by
      rw [maxAbs, List.map_replicate, abs_of_nonneg (by norm_num : (0:ℝ) ≤ 1/2)]
      have : ∀ m : ℕ, (List.replicate m ((1:ℝ)/2)).foldr max 0 ≤ 1/2 := by
        intro m
        induction m with
        | zero => simp
        | succ q ih =>
            rw [List.replicate_succ, List.foldr_cons]
            exact max_le (le_refl _) ih
      exact this 10
    have hlb := le_maxAbs_of_mem
      (List.mem_replicate.mpr ⟨by norm_num, rfl⟩ :
        (1/2:ℝ) ∈ List.replicate 10 ((1:ℝ)/2))
    rw [abs_of_nonneg (by norm_num : (0:ℝ) ≤ 1/2)] at hlb
    linarith
  have hv : validateInput (List.replicate 10 (FSample.fin (1/2))) =
      .ok (List.replicate 10 ((1:ℝ)/2)) := by
    rw [validateInput, hmap, hmax]
    rw [if_neg (by norm_num), if_neg (by norm_num)]
  exact ⟨hv, by simp,
    master_preserves_length (fun _ _ => 2000) (initEngine (-14) (-1)) initEqParams 22050
      (List.replicate 10 (FSample.fin (1/2))) (List.replicate 10 ((1:ℝ)/2)) hv (by simp)⟩

/-- C7 (as written) is false: the one-sample buffer `[1/2]` is accepted by
validation, yet `master_track` returns no buffer at all — with a dark
centroid the retuned `high_mid` gain 1.5 makes the EQ stage call
`scipy.signal.filtfilt` on a buffer of length 1, which raises its pad-length
`ValueError` (and even with neutral gains the stereo stage would raise the
same error), so no output of any length is produced. -/
theorem master_fails_on_short_valid_input :
    validateInput [FSample.fin (1/2)] = .ok [(1/2:ℝ)] ∧
    (masterTrack (fun _ _ => 500) (initEngine (-14) (-1)) initEqParams 22050
        [FSample.fin (1/2)]).2 =
      .error "The length of the input vector x must be greater than padlen, which is 9." := by
  have hmax : maxAbs [(1/2:ℝ)] = 1/2 := by
    rw [maxAbs]
    simp only [List.map_cons, List.map_nil, List.foldr_cons, List.foldr_nil]
    rw [abs_of_nonneg (by norm_num : (0:ℝ) ≤ 1/2), max_eq_left (by norm_num)]
  have hv : validateInput [FSample.fin (1/2)] = .ok [(1/2:ℝ)] := by
    have hmapv : List.map nanToNum [FSample.fin (1/2)] = [(1/2:ℝ)] := rfl
    simp only [validateInput, hmapv, hmax]
    rw [if_neg (by norm_num), if_neg (by norm_num)]
  refine ⟨hv, ?_⟩
  have hdark := retuneEq_dark (by norm_num : (500:ℝ) < 1000) initEqParams
  have hls : applyLowShelf (retuneEq 500 initEqParams).low_shelf 22050 [(1/2:ℝ)] =
      .ok [(1/2:ℝ)] := by
    rw [applyLowShelf, if_neg]
    rw [hdark]
    show ¬ (0.1 < |initEqParams.low_shelf.gain|)
    norm_num [initEqParams]
  have hlm : applyPeaking (retuneEq 500 initEqParams).low_mid 22050 [(1/2:ℝ)] =
      .ok [(1/2:ℝ)] := by
    rw [applyPeaking, if_neg]
    rw [hdark]
    show ¬ (0.1 < |initEqParams.low_mid.gain|)
    norm_num [initEqParams]
  have hmid : applyPeaking (retuneEq 500 initEqParams).mid 22050 [(1/2:ℝ)] =
      .ok [(1/2:ℝ)] := by
    rw [applyPeaking, if_neg]
    rw [hdark]
    show ¬ (0.1 < |initEqParams.mid.gain|)
    norm_num [initEqParams]
  have hhm : applyPeaking (retuneEq 500 initEqParams).high_mid 22050 [(1/2:ℝ)] =
      .error "The length of the input vector x must be greater than padlen, which is 9." := by
    rw [applyPeaking, if_pos, filtfilt, if_neg (by simp)]
    rw [hdark]
    show (0.1:ℝ) < |(1.5:ℝ)|
    rw [abs_of_nonneg (by norm_num : (0:ℝ) ≤ 1.5)]
    norm_num
  have heq : applyEqFilters (retuneEq 500 initEqParams) 22050 [(1/2:ℝ)] =
      .error "The length of the input vector x must be greater than padlen, which is 9." := by
    rw [applyEqFilters, hls, ok_bind, hlm, ok_bind, hmid, ok_bind, hhm, error_bind]
  simp only [masterTrack, hv]
  rw [heq, error_bind]

end UltraDaw
